import Mathlib

/-!
Shallow embedding of the spm-image numerical core:
`spmimage/linear_model/admm.py` (ADMM for generalized Lasso) and
`spmimage/decomposition/ksvd.py` (K-SVD dictionary learning).

Machine floats are embedded as exact rationals for all iteration state;
the only irrational quantities are the Euclidean / Frobenius norms
(`np.linalg.norm`), which live in `ℝ` via `Real.sqrt`.  External
library primitives that the source consumes as black boxes - the OMP
sparse encoder (`sklearn.sparse_encode`), the SVD (`np.linalg.svd`),
the banded solver (`scipy.linalg.solve_banded`), the precomputed dense
inverse products (`np.linalg.inv` applications) and the alpha grid
(`sklearn _alpha_grid`) - are parameters of the embedding, exactly as
the spec's section 6 lists them as external interfaces.
-/

namespace SpmImage

/-- `np.sign`, embedded for any linear ordered field. -/
def npSign {α : Type} [LinearOrderedField α] (x : α) : α :=
  if x < 0 then -1 else if x = 0 then 0 else 1

/-- `_soft_threshold` (admm.py line 30), one scalar entry of
`np.where(np.abs(X) <= thresh, 0, X - thresh * np.sign(X))`. -/
def softThreshold {α : Type} [LinearOrderedField α] (x thresh : α) : α :=
  if |x| ≤ thresh then 0 else x - thresh * npSign x

/-- Euclidean norm of a rational vector, `np.linalg.norm(v)`. -/
noncomputable def l2normQ {n : ℕ} (v : Fin n → ℚ) : ℝ :=
  Real.sqrt ((∑ i, v i ^ 2 : ℚ) : ℝ)

/-- Euclidean norm of a real vector (used for the K-SVD dictionary rows). -/
noncomputable def l2normR {n : ℕ} (v : Fin n → ℝ) : ℝ :=
  Real.sqrt (∑ i, v i ^ 2)

/-- `_cost_function` (admm.py line 34):
`np.linalg.norm(y - X.dot(w)) / n_samples + alpha * np.sum(np.abs(z))`. -/
noncomputable def costFunction {n p : ℕ} (X : Matrix (Fin n) (Fin p) ℚ) (y : Fin n → ℚ)
    (w z : Fin p → ℚ) (alpha : ℚ) : ℝ :=
  l2normQ (y - X.mulVec w) / (n : ℝ) + (alpha : ℝ) * ((∑ i, |z i| : ℚ) : ℝ)

/-- The ADMM iteration state `(w_k, z_k, h_k)` of `_update`. -/
structure AdmmState (p : ℕ) where
  w : Fin p → ℚ
  z : Fin p → ℚ
  h : Fin p → ℚ

/-- The initialization of `_update` (admm.py lines 43-45):
`w_k = X.T.dot(y_k) / n_samples`, `z_k = D.dot(w_k)`, `h_k = 0`. -/
def admmInit {n p : ℕ} (X : Matrix (Fin n) (Fin p) ℚ) (y : Fin n → ℚ)
    (D : Matrix (Fin p) (Fin p) ℚ) : AdmmState p :=
  let w0 : Fin p → ℚ := fun i => X.transpose.mulVec y i / (n : ℚ)
  ⟨w0, D.mulVec w0, fun _ => 0⟩

/-- One loop body of `_update` (admm.py lines 50-59).  `solveBanded` stands
for `scipy.linalg.solve_banded((1, 1), coef_matrix, ·)`, and `invD` for the
precomputed `inv_matrix.dot(rho * D.T)`; both are external linear-algebra
primitives per the spec. -/
def admmStep {n p : ℕ} (X : Matrix (Fin n) (Fin p) ℚ) (D : Matrix (Fin p) (Fin p) ℚ)
    (solveBanded : (Fin p → ℚ) → (Fin p → ℚ)) (invXy : Fin p → ℚ)
    (invD : Matrix (Fin p) (Fin p) ℚ) (alpha rho : ℚ) (tridiagonal : Bool)
    (st : AdmmState p) : AdmmState p :=
  let w1 :=
    if tridiagonal then invXy + solveBanded (D.transpose.mulVec (rho • st.z - st.h))
    else invXy + invD.mulVec (st.z - fun i => st.h i / rho)
  let Dw := D.mulVec w1
  let z1 := fun i => softThreshold (Dw i + st.h i / rho) (alpha / rho)
  let h1 := fun i => st.h i + rho * (Dw i - z1 i)
  ⟨w1, z1, h1⟩

/-- The `for t in range(max_iter)` loop of `_update` (admm.py lines 49-66),
entered with `remaining` further iterations allowed after the current one,
current 0-based iteration index `t`, current state and previous cost.
Each round runs the body, recomputes the cost, and breaks when
`|cost - pre_cost| < tol`; otherwise it continues until the budget is gone.
The returned pair is `(w_k, t)` as in `return w_k, t` (line 68). -/
noncomputable def admmGo {n p : ℕ} (X : Matrix (Fin n) (Fin p) ℚ) (y : Fin n → ℚ)
    (D : Matrix (Fin p) (Fin p) ℚ) (solveBanded : (Fin p → ℚ) → (Fin p → ℚ))
    (invXy : Fin p → ℚ) (invD : Matrix (Fin p) (Fin p) ℚ) (alpha rho : ℚ)
    (tridiagonal : Bool) (tol : ℝ) :
    ℕ → ℕ → AdmmState p → ℝ → ((Fin p → ℚ) × ℕ)
  | 0, t, st, _ =>
    ((admmStep X D solveBanded invXy invD alpha rho tridiagonal st).w, t)
  | (r + 1), t, st, cost =>
    let st1 := admmStep X D solveBanded invXy invD alpha rho tridiagonal st
    let cost1 := costFunction X y st1.w st1.z alpha
    if |cost1 - cost| < tol then (st1.w, t)
    else admmGo X y D solveBanded invXy invD alpha rho tridiagonal tol r (t + 1) st1 cost1

/-- `_update` run with a positive budget `max_iter = m + 1`: the loop of
admm.py lines 49-66 started from the initial state and initial cost. -/
noncomputable def admmRun {n p : ℕ} (X : Matrix (Fin n) (Fin p) ℚ) (y : Fin n → ℚ)
    (D : Matrix (Fin p) (Fin p) ℚ) (solveBanded : (Fin p → ℚ) → (Fin p → ℚ))
    (invXy : Fin p → ℚ) (invD : Matrix (Fin p) (Fin p) ℚ) (alpha rho : ℚ)
    (tridiagonal : Bool) (tol : ℝ) (m : ℕ) : ((Fin p → ℚ) × ℕ) :=
  let st0 := admmInit X y D
  admmGo X y D solveBanded invXy invD alpha rho tridiagonal tol m 0 st0
    (costFunction X y st0.w st0.z alpha)

/-- `_update` (admm.py lines 39-68).  When `max_iter = 0` the Python loop
body never runs and `return w_k, t` raises `NameError` (`t` was never
bound); that failure is embedded as `none`. -/
noncomputable def admmUpdate {n p : ℕ} (X : Matrix (Fin n) (Fin p) ℚ) (y : Fin n → ℚ)
    (D : Matrix (Fin p) (Fin p) ℚ) (solveBanded : (Fin p → ℚ) → (Fin p → ℚ))
    (invXy : Fin p → ℚ) (invD : Matrix (Fin p) (Fin p) ℚ) (alpha rho : ℚ)
    (tridiagonal : Bool) (tol : ℝ) (maxIter : ℕ) : Option ((Fin p → ℚ) × ℕ) :=
  match maxIter with
  | 0 => none
  | m + 1 => some (admmRun X y D solveBanded invXy invD alpha rho tridiagonal tol m)

/-- The state after `k` unconditional body executions of the `_update` loop
(the loop with the break disabled), used to speak about the trace the real
loop walks through. -/
def admmIterate {n p : ℕ} (X : Matrix (Fin n) (Fin p) ℚ) (y : Fin n → ℚ)
    (D : Matrix (Fin p) (Fin p) ℚ) (solveBanded : (Fin p → ℚ) → (Fin p → ℚ))
    (invXy : Fin p → ℚ) (invD : Matrix (Fin p) (Fin p) ℚ) (alpha rho : ℚ)
    (tridiagonal : Bool) (k : ℕ) : AdmmState p :=
  (admmStep X D solveBanded invXy invD alpha rho tridiagonal)^[k] (admmInit X y D)

/-- The cost value the loop holds after `k` body executions (`k = 0` is the
cost computed before the loop at admm.py line 47). -/
noncomputable def admmCost {n p : ℕ} (X : Matrix (Fin n) (Fin p) ℚ) (y : Fin n → ℚ)
    (D : Matrix (Fin p) (Fin p) ℚ) (solveBanded : (Fin p → ℚ) → (Fin p → ℚ))
    (invXy : Fin p → ℚ) (invD : Matrix (Fin p) (Fin p) ℚ) (alpha rho : ℚ)
    (tridiagonal : Bool) (k : ℕ) : ℝ :=
  costFunction X y (admmIterate X y D solveBanded invXy invD alpha rho tridiagonal k).w
    (admmIterate X y D solveBanded invXy invD alpha rho tridiagonal k).z alpha

/-- The convergence gap `np.abs(cost - pre_cost)` tested at iteration `t`. -/
noncomputable def admmGap {n p : ℕ} (X : Matrix (Fin n) (Fin p) ℚ) (y : Fin n → ℚ)
    (D : Matrix (Fin p) (Fin p) ℚ) (solveBanded : (Fin p → ℚ) → (Fin p → ℚ))
    (invXy : Fin p → ℚ) (invD : Matrix (Fin p) (Fin p) ℚ) (alpha rho : ℚ)
    (tridiagonal : Bool) (t : ℕ) : ℝ :=
  |admmCost X y D solveBanded invXy invD alpha rho tridiagonal (t + 1) -
    admmCost X y D solveBanded invXy invD alpha rho tridiagonal t|

/-- The per-target coefficient matrix `w_t` assembled by the multi-target
branch of `_admm` (admm.py lines 123 and 144-149): column `k` is written
with the `w` returned by `_update(X, y[:, k], D, ..., inv_Xy[:, k], ...)`.
`np.empty` contents are arbitrary; the embedding starts from the zero
matrix, and the column theorem shows every column is overwritten. -/
noncomputable def admmAssembleCoef {n p T : ℕ} (X : Matrix (Fin n) (Fin p) ℚ)
    (y : Matrix (Fin n) (Fin T) ℚ) (D : Matrix (Fin p) (Fin p) ℚ)
    (solveBanded : (Fin p → ℚ) → (Fin p → ℚ)) (invXy : Matrix (Fin p) (Fin T) ℚ)
    (invD : Matrix (Fin p) (Fin p) ℚ) (alpha rho : ℚ) (tridiagonal : Bool)
    (tol : ℝ) (m : ℕ) : Matrix (Fin p) (Fin T) ℚ :=
  (List.finRange T).foldl
    (fun W k => W.updateColumn k
      (admmRun X (fun i => y i k) D solveBanded (fun i => invXy i k) invD
        alpha rho tridiagonal tol m).1)
    0

/-- The multi-target branch of `_admm` (admm.py lines 144-151): each target
column is solved independently by `_update` and the results are assembled
into `w_t`; the function returns `np.squeeze(w_t.T)` together with the
per-target iteration counts.  A zero `max_iter` makes every `_update` call
fail, embedded as `none`. -/
noncomputable def admmDispatchMulti {n p T : ℕ} (X : Matrix (Fin n) (Fin p) ℚ)
    (y : Matrix (Fin n) (Fin T) ℚ) (D : Matrix (Fin p) (Fin p) ℚ)
    (solveBanded : (Fin p → ℚ) → (Fin p → ℚ)) (invXy : Matrix (Fin p) (Fin T) ℚ)
    (invD : Matrix (Fin p) (Fin p) ℚ) (alpha rho : ℚ) (tridiagonal : Bool)
    (tol : ℝ) (maxIter : ℕ) : Option (Matrix (Fin T) (Fin p) ℚ × (Fin T → ℕ)) :=
  match maxIter with
  | 0 => none
  | m + 1 =>
    some ((admmAssembleCoef X y D solveBanded invXy invD alpha rho tridiagonal tol m).transpose,
      fun k => (admmRun X (fun i => y i k) D solveBanded (fun i => invXy i k) invD
        alpha rho tridiagonal tol m).2)

/-- The single-target branch of `_admm` (admm.py lines 139-143):
one `_update` call whose `w` becomes the whole coefficient output (the
`(n_features, 1)` result squeezed down to a length `n_features` vector). -/
noncomputable def admmDispatchSingle {n p : ℕ} (X : Matrix (Fin n) (Fin p) ℚ)
    (y : Fin n → ℚ) (D : Matrix (Fin p) (Fin p) ℚ)
    (solveBanded : (Fin p → ℚ) → (Fin p → ℚ)) (invXy : Fin p → ℚ)
    (invD : Matrix (Fin p) (Fin p) ℚ) (alpha rho : ℚ) (tridiagonal : Bool)
    (tol : ℝ) (maxIter : ℕ) : Option ((Fin p → ℚ) × ℕ) :=
  match maxIter with
  | 0 => none
  | m + 1 => some (admmRun X y D solveBanded invXy invD alpha rho tridiagonal tol m)

/-- The alpha sequence of `admm_path` (admm.py lines 80-84): the external
`_alpha_grid` result when no alphas are supplied, `np.sort(alphas)[::-1]`
otherwise. -/
def admmPathAlphas (alphaGrid : List ℚ) (alphas : Option (List ℚ)) : List ℚ :=
  match alphas with
  | none => alphaGrid
  | some l => (l.insertionSort (· ≤ ·)).reverse

/-- `admm_path` on a single-target problem (admm.py lines 71-97), collecting
one coefficient column and one iteration count per alpha, in alpha order.
`solve` stands for the external estimator run
`LassoADMM(alpha=a, ...).fit(X, y)` giving `(coef_, n_iter_)`. -/
def admmPath {p : ℕ} (alphaGrid : List ℚ) (alphas : Option (List ℚ))
    (solve : ℚ → ((Fin p → ℚ) × ℕ)) : List ℚ × List (Fin p → ℚ) × List ℕ :=
  let as := admmPathAlphas alphaGrid alphas
  (as, as.map fun a => (solve a).1, as.map fun a => (solve a).2)

/-- `np.eye(n_features, k=-1)`: ones on the first subdiagonal. -/
def shiftDownEye (n : ℕ) : Matrix (Fin n) (Fin n) ℚ :=
  Matrix.of fun i j => if (i : ℕ) = (j : ℕ) + 1 then 1 else 0

/-- `fused = np.eye(n_features) - np.eye(n_features, k=-1)`
(admm.py line 250). -/
def fusedBase (n : ℕ) : Matrix (Fin n) (Fin n) ℚ :=
  1 - shiftDownEye n

/-- `fused` after the in-place boundary assignment `fused[0, 0] = 0`
(admm.py line 251). -/
def fusedBoundary (n : ℕ) : Matrix (Fin n) (Fin n) ℚ :=
  Matrix.of fun i j => if (i : ℕ) = 0 ∧ (j : ℕ) = 0 then 0 else fusedBase n i j

/-- `FusedLassoADMM.generate_transform_matrix` (admm.py lines 249-255):
`self.sparse_coef * np.eye(n_features) + self.fused_coef * fused`.  The
`diagonal` branch only changes the storage format, not the entries. -/
def generateTransformMatrixFused (n : ℕ) (sparseCoef fusedCoef : ℚ) :
    Matrix (Fin n) (Fin n) ℚ :=
  sparseCoef • (1 : Matrix (Fin n) (Fin n) ℚ) + fusedCoef • fusedBoundary n

/-- The spec's description of the fused transform, written from the spec's
words for comparison: `sparse_coef·I + fused_coef·(I − shift-down-by-one)`
"with only the shift term of the first row zeroed", which makes the first
row keep its identity contribution from both coefficients. -/
def fusedTransformSpec (n : ℕ) (sparseCoef fusedCoef : ℚ) :
    Matrix (Fin n) (Fin n) ℚ :=
  Matrix.of fun i j =>
    sparseCoef * (if i = j then 1 else 0) +
      fusedCoef * ((if i = j then 1 else 0) -
        (if (i : ℕ) = 0 then 0 else if (i : ℕ) = (j : ℕ) + 1 then 1 else 0))

end SpmImage

namespace SpmImage

/-! K-SVD (`spmimage/decomposition/ksvd.py`). -/

/-- The dictionary normalization of `_ksvd` (ksvd.py line 54):
`A = np.dot(A, np.diag(1. / np.sqrt(np.diag(np.dot(A.T, A)))))` applied to
the `(n_components, n_features)` dictionary. -/
noncomputable def normalizeDict {c f : ℕ} (A : Matrix (Fin c) (Fin f) ℝ) :
    Matrix (Fin c) (Fin f) ℝ :=
  A * Matrix.diagonal fun j => 1 / Real.sqrt ((A.transpose * A) j j)

/-- The shape of the dictionary selected at ksvd.py lines 50-53:
`Y[:n_components, :]` when no warm start is given, `dict_init` otherwise.
Shapes are `(rows, columns)` pairs as numpy reports them. -/
def ksvdDictInitShape (Yshape : ℕ × ℕ) (nComponents : ℕ)
    (dictInit : Option (ℕ × ℕ)) : ℕ × ℕ :=
  match dictInit with
  | none => (min nComponents Yshape.1, Yshape.2)
  | some sh => sh

/-- The shape of the code matrix initialized at ksvd.py lines 56-59:
`np.zeros((Y.shape[0], A.shape[1]))` when no warm start is given,
`code_init` otherwise. -/
def ksvdCodeInitShape (Yshape Ashape : ℕ × ℕ) (codeInit : Option (ℕ × ℕ)) :
    ℕ × ℕ :=
  match codeInit with
  | none => (Yshape.1, Ashape.2)
  | some sh => sh

/-- One round of the K-SVD atom-update sub-loop (ksvd.py lines 70-79) for
atom `j`, on the transposed state `A : (n_features, n_components)`,
`X : (n_components, n_samples)`.  `svd` is the external `np.linalg.svd`,
given the columns of the residual `Y[:, x] - A.dot(X[:, x])` in support
order and returning `(U[:, 0], s[0], V.T[:, 0])`.  An atom whose code row
has no nonzero entry is skipped (`continue`). -/
def atomUpdate {f c s : ℕ} {α : Type} [Field α] [DecidableEq α]
    (svd : List (Fin f → α) → ((Fin f → α) × α × List α))
    (Y : Matrix (Fin f) (Fin s) α) (j : Fin c)
    (AX : Matrix (Fin f) (Fin c) α × Matrix (Fin c) (Fin s) α) :
    Matrix (Fin f) (Fin c) α × Matrix (Fin c) (Fin s) α :=
  let A := AX.1
  let X := AX.2
  let supp : List (Fin s) := (List.finRange s).filter fun i => decide (X j i ≠ 0)
  if supp = [] then (A, X)
  else
    let Xz : Matrix (Fin c) (Fin s) α :=
      Matrix.of fun k i => if k = j ∧ X j i ≠ 0 then 0 else X k i
    let residual : Fin s → (Fin f → α) := fun i r => Y r i - ∑ k, A r k * Xz k i
    let usv := svd (supp.map residual)
    let A1 := A.updateColumn j usv.1
    let X1 : Matrix (Fin c) (Fin s) α :=
      Matrix.of fun k i =>
        if k = j ∧ X j i ≠ 0 then usv.2.1 * (usv.2.2.getD (supp.indexOf i) 0)
        else Xz k i
    (A1, X1)

/-- The inner `for j in range(n_components)` loop of `_ksvd`
(ksvd.py lines 70-79). -/
def atomLoop {f c s : ℕ} {α : Type} [Field α] [DecidableEq α]
    (svd : List (Fin f → α) → ((Fin f → α) × α × List α))
    (Y : Matrix (Fin f) (Fin s) α)
    (AX : Matrix (Fin f) (Fin c) α × Matrix (Fin c) (Fin s) α) :
    Matrix (Fin f) (Fin c) α × Matrix (Fin c) (Fin s) α :=
  (List.finRange c).foldl (fun st j => atomUpdate svd Y j st) AX

/-- Frobenius norm `np.linalg.norm(M, 'fro')`. -/
noncomputable def frobNorm {f s : ℕ} (M : Matrix (Fin f) (Fin s) ℝ) : ℝ :=
  Real.sqrt (∑ r, ∑ i, M r i ^ 2)

/-- The result tuple of `_ksvd` in the transposed working layout:
dictionary `A : (n_features, n_components)`, code
`X : (n_components, n_samples)`, the error trace and `n_iter = k + 1`. -/
structure KsvdResult (f c s : ℕ) where
  A : Matrix (Fin f) (Fin c) ℝ
  X : Matrix (Fin c) (Fin s) ℝ
  errors : List ℝ
  nIter : ℕ

/-- The outer `for k in range(max_iter)` loop of `_ksvd`
(ksvd.py lines 67-83), with `m` iterations still allowed and `k` completed
so far.  Each iteration re-encodes (`encode` is the external
`sparse_encode` call of line 68), runs the atom-update sub-loop, appends
the new Frobenius reconstruction error, and breaks when
`np.abs(errors[-1] - errors[-2]) < tol`. -/
noncomputable def ksvdGo {f c s : ℕ}
    (encode : Matrix (Fin f) (Fin c) ℝ → Matrix (Fin c) (Fin s) ℝ)
    (svd : List (Fin f → ℝ) → ((Fin f → ℝ) × ℝ × List ℝ))
    (Y : Matrix (Fin f) (Fin s) ℝ) (tol : ℝ) :
    ℕ → Matrix (Fin f) (Fin c) ℝ × Matrix (Fin c) (Fin s) ℝ → List ℝ → ℕ →
      KsvdResult f c s
  | 0, AX, errors, k => ⟨AX.1, AX.2, errors, k⟩
  | (m + 1), AX, errors, k =>
    let AX2 := atomLoop svd Y (AX.1, encode AX.1)
    let e := frobNorm (Y - AX2.1 * AX2.2)
    if |e - errors.getLastD 0| < tol then ⟨AX2.1, AX2.2, errors ++ [e], k + 1⟩
    else ksvdGo encode svd Y tol m AX2 (errors ++ [e]) (k + 1)

/-- `_ksvd` (ksvd.py lines 50-85) after the choice of the initial
dictionary and code (lines 50-53 and 56-59, embedded shape-wise above):
normalize the dictionary, transpose everything (lines 61-63), record the
initial Frobenius error and run the outer loop. -/
noncomputable def ksvd {s f c : ℕ}
    (encode : Matrix (Fin f) (Fin c) ℝ → Matrix (Fin c) (Fin s) ℝ)
    (svd : List (Fin f → ℝ) → ((Fin f → ℝ) × ℝ × List ℝ))
    (Y : Matrix (Fin s) (Fin f) ℝ) (Ainit : Matrix (Fin c) (Fin f) ℝ)
    (Xinit : Matrix (Fin s) (Fin c) ℝ) (tol : ℝ) (maxIter : ℕ) :
    KsvdResult f c s :=
  let A := (normalizeDict Ainit).transpose
  let X := Xinit.transpose
  let Yt := Y.transpose
  ksvdGo encode svd Yt tol maxIter (A, X) [frobNorm (Yt - A * X)] 0

/-! Theorems. -/

/-- The dictionary `Y[:2, :]` of a concrete `_ksvd` call with
`Y = [[3, 0], [4, 1]]`, `n_components = 2`, `dict_init = None`. -/
def ksvdC1A : Matrix (Fin 2) (Fin 2) ℝ := !![3, 0; 4, 1]

/-- Claim C1: the spec says every atom (row) of the dictionary has unit ℓ2
norm right after the initialization of `_ksvd`.  The code multiplies by
`np.diag(1/np.sqrt(np.diag(A.T @ A)))`, which normalizes the columns of the
`(n_components, n_features)` dictionary, not its rows: for the dictionary
`[[3, 0], [4, 1]]` the first atom of the normalized dictionary has norm
`3/5`, not `1`. -/
theorem ksvd_init_first_atom_norm_is_three_fifths :
    l2normR (normalizeDict ksvdC1A 0) = 3 / 5 ∧
      l2normR (normalizeDict ksvdC1A 0) ≠ 1 := by
  have h25 : (ksvdC1A.transpose * ksvdC1A) 0 0 = (25 : ℝ) := by
    rw [Matrix.mul_apply, Fin.sum_univ_two]
    simp only [Matrix.transpose_apply]
    norm_num [ksvdC1A]
  have h1 : (ksvdC1A.transpose * ksvdC1A) 1 1 = (1 : ℝ) := by
    rw [Matrix.mul_apply, Fin.sum_univ_two]
    simp only [Matrix.transpose_apply]
    norm_num [ksvdC1A]
  have hs25 : Real.sqrt ((ksvdC1A.transpose * ksvdC1A) 0 0) = 5 := by
    rw [h25, show (25 : ℝ) = 5 ^ 2 by norm_num,
      Real.sqrt_sq (by norm_num : (0 : ℝ) ≤ 5)]
  have hs1 : Real.sqrt ((ksvdC1A.transpose * ksvdC1A) 1 1) = 1 := by
    rw [h1, Real.sqrt_one]
  have e0 : normalizeDict ksvdC1A 0 0 = 3 / 5 := by
    simp only [normalizeDict, Matrix.mul_diagonal, hs25]
    simp [ksvdC1A]
    norm_num
  have e1 : normalizeDict ksvdC1A 0 1 = 0 := by
    simp only [normalizeDict, Matrix.mul_diagonal, hs1]
    simp [ksvdC1A]
  have hnorm : l2normR (normalizeDict ksvdC1A 0) = 3 / 5 := by
    rw [l2normR, Fin.sum_univ_two, e0, e1,
      show ((3 / 5 : ℝ) ^ 2 + 0 ^ 2) = (3 / 5) ^ 2 by ring,
      Real.sqrt_sq (by norm_num : (0 : ℝ) ≤ 3 / 5)]
  exact ⟨hnorm, by rw [hnorm]; norm_num⟩

/-- Claim C2: the spec says that with `code_init = None` the code matrix is
the all-zero `n_samples × n_components` matrix for every `n_components`.
The code allocates `np.zeros((Y.shape[0], A.shape[1]))`, whose second
dimension is `n_features`: for `Y` of shape `(5, 2)` and `n_components = 1`
the allocated shape is `(5, 2)`, not the documented `(5, 1)`. -/
theorem ksvd_code_init_shape_uses_n_features :
    ksvdCodeInitShape (5, 2) (ksvdDictInitShape (5, 2) 1 none) none = (5, 2) ∧
      ksvdCodeInitShape (5, 2) (ksvdDictInitShape (5, 2) 1 none) none ≠ (5, 1) := by
  decide

/-- Claim C4: during the K-SVD atom-update sub-loop, an atom whose code row
has no nonzero entry (empty support) is skipped: the round returns the
dictionary and code unchanged. -/
theorem atomUpdate_empty_support {f c s : ℕ} {α : Type} [Field α] [DecidableEq α]
    (svd : List (Fin f → α) → ((Fin f → α) × α × List α))
    (Y : Matrix (Fin f) (Fin s) α) (j : Fin c)
    (A : Matrix (Fin f) (Fin c) α) (X : Matrix (Fin c) (Fin s) α)
    (hz : ∀ i, X j i = 0) : atomUpdate svd Y j (A, X) = (A, X) := by
  have hsupp : ((List.finRange s).filter fun i => decide (X j i ≠ 0)) = [] := by
    apply List.filter_eq_nil_iff.mpr
    intro a _
    simp [hz a]
  simp only [atomUpdate, hsupp]
  simp

/-- A concrete external SVD stub for the `atomUpdate_empty_support` witness. -/
def witSvd : List (Fin 1 → ℚ) → ((Fin 1 → ℚ) × ℚ × List ℚ) :=
  fun _ => (fun _ => 2, 3, [5])

/-- A concrete data matrix for the `atomUpdate_empty_support` witness. -/
def witY : Matrix (Fin 1) (Fin 1) ℚ := !![7]

/-- A concrete dictionary for the `atomUpdate_empty_support` witness. -/
def witA : Matrix (Fin 1) (Fin 1) ℚ := !![2]

/-- A concrete all-zero code for the `atomUpdate_empty_support` witness. -/
def witX : Matrix (Fin 1) (Fin 1) ℚ := 0

/-- Witness for `atomUpdate_empty_support` at a concrete zero code row. -/
theorem atomUpdate_empty_support_witness :
    (∀ i, witX 0 i = 0) ∧ atomUpdate witSvd witY 0 (witA, witX) = (witA, witX) :=
  ⟨by decide, atomUpdate_empty_support witSvd witY 0 witA witX (by decide)⟩

/-- Claim C5 counterexample: the claim reads the fused transform as zeroing
only the shift term of the first row, which would put
`sparse_coef + fused_coef` at the top-left (`fusedTransformSpec`).  The code
executes `fused[0, 0] = 0` after the first row of the shift part is already
zero, so the whole fused contribution of row 0 vanishes and the top-left
entry is `sparse_coef` alone: at `n_features = 2`,
`sparse_coef = fused_coef = 1` the code yields `D[0,0] = 1`, the claim
predicts `2`. -/
theorem fused_transform_top_left_counterexample :
    generateTransformMatrixFused 2 1 1 0 0 = 1 ∧
      fusedTransformSpec 2 1 1 0 0 = 2 ∧
      generateTransformMatrixFused 2 1 1 ≠ fusedTransformSpec 2 1 1 := by
  have h1 : generateTransformMatrixFused 2 1 1 0 0 = 1 := by
    simp [generateTransformMatrixFused, fusedBoundary, fusedBase, shiftDownEye,
      Matrix.add_apply, Matrix.smul_apply, Matrix.one_apply, Matrix.sub_apply,
      Matrix.of_apply]
  have h2 : fusedTransformSpec 2 1 1 0 0 = 2 := by
    simp [fusedTransformSpec]
    norm_num
  exact ⟨h1, h2, fun h => by rw [h, h2] at h1; norm_num at h1⟩

/-- Claim C5 as amended: `D = sparse_coef·I + fused_coef·F` where `F` is
`I − shift-down-by-one` with its entire first row zeroed; hence row 0 of
`D` is `sparse_coef · e₀`, the top-left entry is `sparse_coef`, every later
row matches `sparse_coef·I + fused_coef·(I − shift)`, and with
`fused_coef = 0` the result is exactly `sparse_coef · I`. -/
theorem fused_transform_amended (n : ℕ) (sc fc : ℚ) :
    (∀ j : Fin (n + 1),
      generateTransformMatrixFused (n + 1) sc fc 0 j =
        sc * (if (0 : Fin (n + 1)) = j then 1 else 0)) ∧
    (∀ (i : Fin n) (j : Fin (n + 1)),
      generateTransformMatrixFused (n + 1) sc fc i.succ j =
        sc * (if i.succ = j then 1 else 0) +
          fc * ((if i.succ = j then 1 else 0) -
            (if ((i.succ : Fin (n + 1)) : ℕ) = (j : ℕ) + 1 then 1 else 0))) ∧
    generateTransformMatrixFused (n + 1) sc fc 0 0 = sc ∧
    generateTransformMatrixFused n sc 0 = sc • (1 : Matrix (Fin n) (Fin n) ℚ) := by
  have hrow0 : ∀ j : Fin (n + 1),
      generateTransformMatrixFused (n + 1) sc fc 0 j =
        sc * (if (0 : Fin (n + 1)) = j then 1 else 0) := by
    intro j
    simp only [generateTransformMatrixFused, fusedBoundary, fusedBase, shiftDownEye,
      Matrix.add_apply, Matrix.smul_apply, Matrix.of_apply, Matrix.sub_apply,
      Matrix.one_apply, smul_eq_mul]
    by_cases hj : (j : ℕ) = 0
    · have hj' : (0 : Fin (n + 1)) = j := by
        exact Fin.ext (by simp [hj])
      simp [hj, hj']
    · have hj' : ¬((0 : Fin (n + 1)) = j) := by
        intro h
        exact hj (by simp [← h])
      have hsh : ¬((0 : ℕ) = (j : ℕ) + 1) := by omega
      simp [hj, hj', hsh]
  refine ⟨hrow0, ?_, ?_, ?_⟩
  · intro i j
    have hi : ¬(((i.succ : Fin (n + 1)) : ℕ) = 0) := by
      simp [Fin.val_succ]
    simp only [generateTransformMatrixFused, fusedBoundary, fusedBase, shiftDownEye,
      Matrix.add_apply, Matrix.smul_apply, Matrix.of_apply, Matrix.sub_apply,
      Matrix.one_apply, smul_eq_mul]
    simp [hi]
  · have := hrow0 0
    simpa using this
  · ext i j
    simp only [generateTransformMatrixFused, Matrix.add_apply, Matrix.smul_apply,
      smul_eq_mul]
    simp

/-- Claim C10: `_update` with `max_iter = 0` never binds the loop variable
`t` and fails at `return w_k, t` (embedded as `none`); with any positive
budget it produces a result. -/
theorem admm_update_zero_budget_fails {n p : ℕ} (X : Matrix (Fin n) (Fin p) ℚ)
    (y : Fin n → ℚ) (D : Matrix (Fin p) (Fin p) ℚ)
    (sb : (Fin p → ℚ) → (Fin p → ℚ)) (invXy : Fin p → ℚ)
    (invD : Matrix (Fin p) (Fin p) ℚ) (alpha rho : ℚ) (tri : Bool) (tol : ℝ) :
    admmUpdate X y D sb invXy invD alpha rho tri tol 0 = none ∧
      ∀ m : ℕ, (admmUpdate X y D sb invXy invD alpha rho tri tol (m + 1)).isSome = true :=
  ⟨rfl, fun _ => rfl⟩

/-- Claim C9: `admm_path` on a single-target problem returns descending
alphas - the external grid when none are supplied (descending by the grid
generator's contract), supplied alphas re-sorted descending - and one
coefficient column per alpha. -/
theorem admm_path_descending_alphas {p : ℕ} (alphaGrid : List ℚ) (l : List ℚ)
    (solve : ℚ → ((Fin p → ℚ) × ℕ)) (hg : alphaGrid.Sorted (· ≥ ·)) :
    (admmPath alphaGrid none solve).1.Sorted (· ≥ ·) ∧
    (admmPath alphaGrid (some l) solve).1.Sorted (· ≥ ·) ∧
    (admmPath alphaGrid none solve).2.1.length = (admmPath alphaGrid none solve).1.length ∧
    (admmPath alphaGrid (some l) solve).2.1.length = (admmPath alphaGrid (some l) solve).1.length ∧
    (admmPath alphaGrid (some l) solve).1.length = l.length := by
  refine ⟨hg, ?_, ?_, ?_, ?_⟩
  · show ((l.insertionSort (· ≤ ·)).reverse).Sorted (· ≥ ·)
    rw [List.Sorted, List.pairwise_reverse]
    exact List.sorted_insertionSort (· ≤ ·) l
  · simp [admmPath]
  · simp [admmPath]
  · simp [admmPath, admmPathAlphas, List.length_insertionSort]

section AdmmLoopProofs

variable {n p : ℕ} (X : Matrix (Fin n) (Fin p) ℚ) (y : Fin n → ℚ)
  (D : Matrix (Fin p) (Fin p) ℚ) (sb : (Fin p → ℚ) → (Fin p → ℚ))
  (invXy : Fin p → ℚ) (invD : Matrix (Fin p) (Fin p) ℚ) (alpha rho : ℚ)
  (tri : Bool) (tol : ℝ)

/-- The `_update` loop entered at iteration `t` on the trace state it holds
there (a proof device: `admmRun` is the `t = 0` instance). -/
noncomputable def admmResult (r t : ℕ) : ((Fin p → ℚ) × ℕ) :=
  admmGo X y D sb invXy invD alpha rho tri tol r t
    (admmIterate X y D sb invXy invD alpha rho tri t)
    (admmCost X y D sb invXy invD alpha rho tri t)

lemma admmStep_iterate (t : ℕ) :
    admmStep X D sb invXy invD alpha rho tri
        (admmIterate X y D sb invXy invD alpha rho tri t) =
      admmIterate X y D sb invXy invD alpha rho tri (t + 1) :=
  (Function.iterate_succ_apply' _ _ _).symm

/-- Full characterization of the `_update` loop: starting at iteration `t`
with `r` further rounds allowed, the loop returns the primal iterate of the
round after the returned index, the index stays within budget, no earlier
round satisfied the stopping test, and the final round either satisfied it
or exhausted the budget. -/
lemma admmResult_spec (r : ℕ) : ∀ t : ℕ,
    t ≤ (admmResult X y D sb invXy invD alpha rho tri tol r t).2 ∧
    (admmResult X y D sb invXy invD alpha rho tri tol r t).2 ≤ t + r ∧
    (admmResult X y D sb invXy invD alpha rho tri tol r t).1 =
      (admmIterate X y D sb invXy invD alpha rho tri
        ((admmResult X y D sb invXy invD alpha rho tri tol r t).2 + 1)).w ∧
    (∀ s, t ≤ s → s < (admmResult X y D sb invXy invD alpha rho tri tol r t).2 →
      tol ≤ admmGap X y D sb invXy invD alpha rho tri s) ∧
    (admmGap X y D sb invXy invD alpha rho tri
        (admmResult X y D sb invXy invD alpha rho tri tol r t).2 < tol ∨
      (admmResult X y D sb invXy invD alpha rho tri tol r t).2 = t + r) := by
  induction r with
  | zero =>
    intro t
    have hunfold : admmResult X y D sb invXy invD alpha rho tri tol 0 t =
        ((admmIterate X y D sb invXy invD alpha rho tri (t + 1)).w, t) := by
      simp only [admmResult, admmGo, admmStep_iterate]
    rw [hunfold]
    exact ⟨le_refl t, by omega, rfl, fun s hts hst => absurd (lt_of_le_of_lt hts hst)
      (lt_irrefl t), Or.inr (by omega)⟩
  | succ r ih =>
    intro t
    have hunfold : admmResult X y D sb invXy invD alpha rho tri tol (r + 1) t =
        if admmGap X y D sb invXy invD alpha rho tri t < tol
        then ((admmIterate X y D sb invXy invD alpha rho tri (t + 1)).w, t)
        else admmResult X y D sb invXy invD alpha rho tri tol r (t + 1) := by
      simp only [admmResult, admmGo, admmStep_iterate]
      rfl
    rw [hunfold]
    by_cases hc : admmGap X y D sb invXy invD alpha rho tri t < tol
    · rw [if_pos hc]
      exact ⟨le_refl t, by omega, rfl, fun s hts hst => absurd (lt_of_le_of_lt hts hst)
        (lt_irrefl t), Or.inl hc⟩
    · rw [if_neg hc]
      obtain ⟨h1, h2, h3, h4, h5⟩ := ih (t + 1)
      refine ⟨by omega, by omega, h3, ?_, ?_⟩
      · intro s hts hst
        rcases Nat.eq_or_lt_of_le hts with h | h
        · exact h ▸ le_of_not_lt hc
        · exact h4 s h hst
      · rcases h5 with h | h
        · exact Or.inl h
        · exact Or.inr (by omega)

lemma admmRun_eq_result (m : ℕ) :
    admmRun X y D sb invXy invD alpha rho tri tol m =
      admmResult X y D sb invXy invD alpha rho tri tol m 0 :=
  rfl

/-- Claim C6: the stopping cost is
`(1/n_samples)·‖y − Xw‖ + α·Σ|z|` (norm neither squared nor halved), the
soft threshold maps `v` to `0` when `|v| ≤ t` and to `v − t·sign(v)`
otherwise, and the loop stops exactly when `|cost − previous_cost| < tol`:
no round before the returned index `T` passed the test, and round `T`
either passed it or was the last budgeted round. -/
theorem admm_cost_and_stopping_criterion (v thr : ℚ) (w z : Fin p → ℚ) (m : ℕ) :
    ((|v| ≤ thr ∧ softThreshold v thr = 0) ∨
      (thr < |v| ∧ softThreshold v thr = v - thr * npSign v)) ∧
    costFunction X y w z alpha =
      (1 / (n : ℝ)) * l2normQ (y - X.mulVec w) + (alpha : ℝ) * ∑ i, |((z i : ℚ) : ℝ)| ∧
    (∀ s : Fin (admmRun X y D sb invXy invD alpha rho tri tol m).2,
      tol ≤ admmGap X y D sb invXy invD alpha rho tri s) ∧
    (admmGap X y D sb invXy invD alpha rho tri
        (admmRun X y D sb invXy invD alpha rho tri tol m).2 < tol ∨
      (admmRun X y D sb invXy invD alpha rho tri tol m).2 = m) := by
  obtain ⟨h1, h2, h3, h4, h5⟩ := admmResult_spec X y D sb invXy invD alpha rho tri tol m 0
  refine ⟨?_, ?_, ?_, ?_⟩
  · by_cases hv : |v| ≤ thr
    · exact Or.inl ⟨hv, by simp [softThreshold, hv]⟩
    · exact Or.inr ⟨not_le.mp hv, by simp [softThreshold, hv]⟩
  · simp only [costFunction]
    push_cast
    ring
  · intro s
    exact h4 s (Nat.zero_le _) s.isLt
  · rw [admmRun_eq_result]
    rcases h5 with h | h
    · exact Or.inl h
    · exact Or.inr (by omega)

/-- Claim C7: with any positive budget `max_iter = m + 1`, `_update`
returns a value (no error), its iteration index never exceeds
`max_iter − 1`, the returned `w` is the last iterate (the one produced by
the round at the returned index), and an early stop at index `T` means
exactly that round `T` passed the gap test while no earlier round did. -/
theorem admm_update_budget_and_convergence (m : ℕ) :
    admmUpdate X y D sb invXy invD alpha rho tri tol (m + 1) =
      some (admmRun X y D sb invXy invD alpha rho tri tol m) ∧
    (admmRun X y D sb invXy invD alpha rho tri tol m).2 ≤ (m + 1) - 1 ∧
    (admmRun X y D sb invXy invD alpha rho tri tol m).1 =
      (admmIterate X y D sb invXy invD alpha rho tri
        ((admmRun X y D sb invXy invD alpha rho tri tol m).2 + 1)).w ∧
    (∀ s : Fin (admmRun X y D sb invXy invD alpha rho tri tol m).2,
      tol ≤ admmGap X y D sb invXy invD alpha rho tri s) ∧
    (admmGap X y D sb invXy invD alpha rho tri
        (admmRun X y D sb invXy invD alpha rho tri tol m).2 < tol ∨
      (admmRun X y D sb invXy invD alpha rho tri tol m).2 = m) := by
  obtain ⟨h1, h2, h3, h4, h5⟩ := admmResult_spec X y D sb invXy invD alpha rho tri tol m 0
  refine ⟨rfl, ?_, ?_, ?_, ?_⟩
  · rw [admmRun_eq_result]
    omega
  · rw [admmRun_eq_result]
    exact h3
  · intro s
    exact h4 s (Nat.zero_le _) s.isLt
  · rw [admmRun_eq_result]
    rcases h5 with h | h
    · exact Or.inl h
    · exact Or.inr (by omega)

end AdmmLoopProofs

/-- Columns written one at a time by `updateColumn` do not disturb each
other: the fold that assembles `w_t` leaves column `k` holding exactly the
`k`-th written vector. -/
lemma foldl_updateColumn_apply {p T : ℕ} (f : Fin T → (Fin p → ℚ)) :
    ∀ (l : List (Fin T)) (W : Matrix (Fin p) (Fin T) ℚ) (i : Fin p) (k : Fin T),
      (l.foldl (fun W j => W.updateColumn j (f j)) W) i k =
        if k ∈ l then f k i else W i k
  | [], W, i, k => by simp
  | (a :: l), W, i, k => by
    rw [List.foldl_cons, foldl_updateColumn_apply f l]
    by_cases hk : k ∈ l
    · simp [hk]
    · by_cases hka : k = a
      · simp [hk, hka, Matrix.updateColumn_self]
      · simp [hk, hka, Matrix.updateColumn_apply]

/-- Claim C8: the coefficient matrix assembled by the multi-target branch
of `_admm` is `n_features × n_targets` with column `k` holding the
`_update` solution for target column `k` (columns in target order); the
dispatch returns it transposed (`np.squeeze(w_t.T)`) along with the
per-target iteration counts, and the single-target branch returns the
length-`n_features` solution vector of its one `_update` call. -/
theorem admm_dispatch_columns {n p T : ℕ} (X : Matrix (Fin n) (Fin p) ℚ)
    (y : Matrix (Fin n) (Fin T) ℚ) (y1 : Fin n → ℚ) (D : Matrix (Fin p) (Fin p) ℚ)
    (sb : (Fin p → ℚ) → (Fin p → ℚ)) (invXy : Matrix (Fin p) (Fin T) ℚ)
    (invXy1 : Fin p → ℚ) (invD : Matrix (Fin p) (Fin p) ℚ) (alpha rho : ℚ)
    (tri : Bool) (tol : ℝ) (m : ℕ) :
    (∀ (k : Fin T) (i : Fin p),
      admmAssembleCoef X y D sb invXy invD alpha rho tri tol m i k =
        (admmRun X (fun r => y r k) D sb (fun r => invXy r k) invD
          alpha rho tri tol m).1 i) ∧
    admmDispatchMulti X y D sb invXy invD alpha rho tri tol (m + 1) =
      some ((admmAssembleCoef X y D sb invXy invD alpha rho tri tol m).transpose,
        fun k => (admmRun X (fun r => y r k) D sb (fun r => invXy r k) invD
          alpha rho tri tol m).2) ∧
    admmDispatchSingle X y1 D sb invXy1 invD alpha rho tri tol (m + 1) =
      some (admmRun X y1 D sb invXy1 invD alpha rho tri tol m) := by
  refine ⟨?_, rfl, rfl⟩
  intro k i
  rw [admmAssembleCoef, foldl_updateColumn_apply
    (fun j => (admmRun X (fun r => y r j) D sb (fun r => invXy r j) invD
      alpha rho tri tol m).1)]
  simp [List.mem_finRange]

/-- The Frobenius norm is non-negative. -/
lemma frobNorm_nonneg {f s : ℕ} (M : Matrix (Fin f) (Fin s) ℝ) : 0 ≤ frobNorm M :=
  Real.sqrt_nonneg _

/-- Bookkeeping invariant of the `_ksvd` outer loop: every completed
iteration appends exactly one error (a Frobenius norm, hence non-negative)
and advances the iteration count by one; the loop runs at most `m` more
iterations and never shrinks the trace recorded so far. -/
lemma ksvdGo_spec {f c s : ℕ}
    (encode : Matrix (Fin f) (Fin c) ℝ → Matrix (Fin c) (Fin s) ℝ)
    (svd : List (Fin f → ℝ) → ((Fin f → ℝ) × ℝ × List ℝ))
    (Y : Matrix (Fin f) (Fin s) ℝ) (tol : ℝ) (m : ℕ) :
    ∀ (AX : Matrix (Fin f) (Fin c) ℝ × Matrix (Fin c) (Fin s) ℝ)
      (errors : List ℝ) (k : ℕ),
      (ksvdGo encode svd Y tol m AX errors k).errors.length + k =
        errors.length + (ksvdGo encode svd Y tol m AX errors k).nIter ∧
      k ≤ (ksvdGo encode svd Y tol m AX errors k).nIter ∧
      (ksvdGo encode svd Y tol m AX errors k).nIter ≤ k + m ∧
      (∃ tail, (ksvdGo encode svd Y tol m AX errors k).errors = errors ++ tail) ∧
      ((∀ e ∈ errors, 0 ≤ e) →
        ∀ e ∈ (ksvdGo encode svd Y tol m AX errors k).errors, 0 ≤ e) := by
  induction m with
  | zero =>
    intro AX errors k
    have hz : ksvdGo encode svd Y tol 0 AX errors k = ⟨AX.1, AX.2, errors, k⟩ := by
      simp only [ksvdGo]
    rw [hz]
    dsimp only
    exact ⟨rfl, le_refl k, by omega, ⟨[], by simp⟩, fun h => h⟩
  | succ m ih =>
    intro AX errors k
    have hunfold : ksvdGo encode svd Y tol (m + 1) AX errors k =
        if |frobNorm (Y - (atomLoop svd Y (AX.1, encode AX.1)).1 *
              (atomLoop svd Y (AX.1, encode AX.1)).2) - errors.getLastD 0| < tol
        then ⟨(atomLoop svd Y (AX.1, encode AX.1)).1,
              (atomLoop svd Y (AX.1, encode AX.1)).2,
              errors ++ [frobNorm (Y - (atomLoop svd Y (AX.1, encode AX.1)).1 *
                (atomLoop svd Y (AX.1, encode AX.1)).2)], k + 1⟩
        else ksvdGo encode svd Y tol m (atomLoop svd Y (AX.1, encode AX.1))
              (errors ++ [frobNorm (Y - (atomLoop svd Y (AX.1, encode AX.1)).1 *
                (atomLoop svd Y (AX.1, encode AX.1)).2)]) (k + 1) := by
      simp only [ksvdGo]
    rw [hunfold]
    by_cases hc : |frobNorm (Y - (atomLoop svd Y (AX.1, encode AX.1)).1 *
        (atomLoop svd Y (AX.1, encode AX.1)).2) - errors.getLastD 0| < tol
    · rw [if_pos hc]
      dsimp only
      refine ⟨by simp only [List.length_append, List.length_singleton]; omega,
        by omega, by omega, ⟨_, rfl⟩, ?_⟩
      intro h e he
      rcases List.mem_append.mp he with h1 | h1
      · exact h e h1
      · rcases List.mem_singleton.mp h1 with rfl
        exact frobNorm_nonneg _
    · rw [if_neg hc]
      obtain ⟨h1, h2, h3, ⟨tail, h4⟩, h5⟩ :=
        ih (atomLoop svd Y (AX.1, encode AX.1))
          (errors ++ [frobNorm (Y - (atomLoop svd Y (AX.1, encode AX.1)).1 *
            (atomLoop svd Y (AX.1, encode AX.1)).2)]) (k + 1)
      refine ⟨by simp at h1 ⊢; omega, by omega, by omega,
        ⟨_ :: tail, by rw [h4, List.append_assoc]; rfl⟩, ?_⟩
      intro h e he
      refine h5 ?_ e he
      intro e' he'
      rcases List.mem_append.mp he' with h6 | h6
      · exact h e' h6
      · rcases List.mem_singleton.mp h6 with rfl
        exact frobNorm_nonneg _

/-- Claim C3: `_ksvd` returns `n_iter` equal to the number of completed
outer iterations (`0` when `max_iter = 0`), and the error trace has exactly
`n_iter + 1` entries: the initial Frobenius reconstruction error followed
by one non-negative error per completed iteration. -/
theorem ksvd_trace_length {s f c : ℕ}
    (encode : Matrix (Fin f) (Fin c) ℝ → Matrix (Fin c) (Fin s) ℝ)
    (svd : List (Fin f → ℝ) → ((Fin f → ℝ) × ℝ × List ℝ))
    (Y : Matrix (Fin s) (Fin f) ℝ) (Ainit : Matrix (Fin c) (Fin f) ℝ)
    (Xinit : Matrix (Fin s) (Fin c) ℝ) (tol : ℝ) (maxIter : ℕ) :
    (ksvd encode svd Y Ainit Xinit tol maxIter).errors.length =
      (ksvd encode svd Y Ainit Xinit tol maxIter).nIter + 1 ∧
    (ksvd encode svd Y Ainit Xinit tol maxIter).nIter ≤ maxIter ∧
    (ksvd encode svd Y Ainit Xinit tol 0).nIter = 0 ∧
    (ksvd encode svd Y Ainit Xinit tol maxIter).errors.head? =
      some (frobNorm (Y.transpose -
        (normalizeDict Ainit).transpose * Xinit.transpose)) ∧
    ∀ i : Fin (ksvd encode svd Y Ainit Xinit tol maxIter).errors.length,
      0 ≤ (ksvd encode svd Y Ainit Xinit tol maxIter).errors.get i := by
  have hksvd : ksvd encode svd Y Ainit Xinit tol maxIter =
      ksvdGo encode svd Y.transpose tol maxIter
        ((normalizeDict Ainit).transpose, Xinit.transpose)
        [frobNorm (Y.transpose - (normalizeDict Ainit).transpose * Xinit.transpose)]
        0 := rfl
  obtain ⟨h1, h2, h3, ⟨tail, h4⟩, h5⟩ :=
    ksvdGo_spec encode svd Y.transpose tol maxIter
      ((normalizeDict Ainit).transpose, Xinit.transpose)
      [frobNorm (Y.transpose - (normalizeDict Ainit).transpose * Xinit.transpose)]
      0
  have hbase : ∀ e ∈ [frobNorm (Y.transpose -
      (normalizeDict Ainit).transpose * Xinit.transpose)], (0 : ℝ) ≤ e := by
    intro e he
    rcases List.mem_singleton.mp he with rfl
    exact frobNorm_nonneg _
  refine ⟨?_, ?_, rfl, ?_, ?_⟩
  · rw [hksvd]
    simp at h1
    omega
  · rw [hksvd]
    omega
  · rw [hksvd, h4]
    rfl
  · rw [hksvd]
    intro i
    exact h5 hbase _ (List.get_mem _ _ _)

/-- A concrete per-alpha solver stub for the `admm_path` witness. -/
def witSolve : ℚ → ((Fin 1 → ℚ) × ℕ) := fun _ => (fun _ => 0, 0)

/-- Witness for `admm_path_descending_alphas` at a concrete descending grid
and a concrete unsorted supplied list. -/
theorem admm_path_descending_alphas_witness :
    ([2, 1] : List ℚ).Sorted (· ≥ ·) ∧
      ((admmPath [2, 1] none witSolve).1.Sorted (· ≥ ·) ∧
      (admmPath [2, 1] (some [1, 3]) witSolve).1.Sorted (· ≥ ·) ∧
      (admmPath [2, 1] none witSolve).2.1.length = (admmPath [2, 1] none witSolve).1.length ∧
      (admmPath [2, 1] (some [1, 3]) witSolve).2.1.length =
        (admmPath [2, 1] (some [1, 3]) witSolve).1.length ∧
      (admmPath [2, 1] (some [1, 3]) witSolve).1.length = ([1, 3] : List ℚ).length) :=
  ⟨by decide, admm_path_descending_alphas [2, 1] [1, 3] witSolve (by decide)⟩

end SpmImage
